import Mathlib

/-!
Verification of the spotspoof-cli matching/scoring/search core against its
natural-language specification.

Strings are modelled at the granularity the code observes them:
* `src/ascii_spoof.rs` measures `len()` in bytes, runs its edit-distance DP
  over `as_bytes()` and searches `rfind('.')` by byte index, so on that side a
  string is a `List Nat` of its UTF-8 bytes;
* `src/idn.rs` walks `chars()` everywhere, so on that side a string is a
  `List Nat` of its Unicode code points.

`similarity_ratio` in the source computes with `f32` values.  The model below
represents every finite `f32` exactly as a dyadic value `num * 2 ^ exp` and
implements the IEEE-754 binary32 operations the function uses (cast from
integer, division, subtraction, multiplication: correctly rounded to a 24-bit
significand, ties to even; `round` half away from zero; saturating cast to
`u8`).  The model ignores overflow to infinity and subnormal underflow, which
for this pipeline would require byte strings of astronomical length
(beyond 2 ^ 100 bytes).
-/

set_option maxRecDepth 4000

/-! ### Exact model of the `f32` arithmetic used by `similarity_ratio` -/

/-- A dyadic value `num * 2 ^ exp`.  Every finite `f32` is of this shape. -/
structure Dy where
  num : Int
  exp : Int
deriving DecidableEq

/-- Bit length of `n` (`0` for `0`), via a structurally recursive helper whose
fuel `n` always suffices because a number is at least as large as its bit
length. -/
def bitLenAux : Nat → Nat → Nat
  | 0, _ => 0
  | fuel + 1, n => if n = 0 then 0 else bitLenAux fuel (n / 2) + 1

/-- Bit length of a natural number: `bitLen n = ⌊log₂ n⌋ + 1` for `n ≥ 1`. -/
def bitLen (n : Nat) : Nat := bitLenAux n n

/-- Round a dyadic value to a 24-bit significand, to nearest, ties to even:
the rounding IEEE-754 binary32 applies to every arithmetic result.  A value
whose integer part already fits 24 bits is exact and kept unchanged. -/
def rndDy (x : Dy) : Dy :=
  let a := x.num.natAbs
  if a < 2 ^ 24 then x
  else
    let t := bitLen a - 24
    let q := a / 2 ^ t
    let r := a % 2 ^ t
    let half := 2 ^ (t - 1)
    let q' := if half < r ∨ (r = half ∧ q % 2 = 1) then q + 1 else q
    ⟨if x.num < 0 then -(q' : Int) else (q' : Int), x.exp + t⟩

/-- Exact difference of two dyadic values (exponents aligned by shifting). -/
def dySub (x y : Dy) : Dy :=
  if x.exp ≤ y.exp then ⟨x.num - y.num * 2 ^ (y.exp - x.exp).toNat, x.exp⟩
  else ⟨x.num * 2 ^ (x.exp - y.exp).toNat - y.num, y.exp⟩

/-- Exact product of two dyadic values. -/
def dyMul (x y : Dy) : Dy := ⟨x.num * y.num, x.exp + y.exp⟩

/-- Whether `b * 2 ^ e ≤ a`, for naturals `a b` and an integer exponent. -/
def le2pow (b : Nat) (e : Int) (a : Nat) : Bool :=
  if 0 ≤ e then b * 2 ^ e.toNat ≤ a else b ≤ a * 2 ^ (-e).toNat

/-- Correctly rounded binary32 significand of the ratio `a / b` of two
positive naturals: the result is `q * 2 ^ (e - 23)` with
`e = ⌊log₂ (a / b)⌋` and `q` the nearest (ties to even) integer to
`(a / b) * 2 ^ (23 - e)`. -/
def divRoundEvenSig (a b : Nat) : Dy :=
  let e0 : Int := (bitLen a : Int) - (bitLen b : Int)
  let e : Int := if le2pow b e0 a then e0 else e0 - 1
  let s : Int := 23 - e
  let num := a * 2 ^ s.toNat
  let den := b * 2 ^ (-s).toNat
  let q := num / den
  let r := num % den
  let q' := if den < 2 * r ∨ (2 * r = den ∧ q % 2 = 1) then q + 1 else q
  ⟨(q' : Int), e - 23⟩

/-- Binary32 cast of a natural number (`distance as f32`, `max_len as f32`). -/
def f32OfNat (n : Nat) : Dy := rndDy ⟨n, 0⟩

/-- Binary32 division.  Division by zero never occurs in the pipeline below
(the divisor is a cast of `max_len ≥ 1`); on that dead input the model returns
an arbitrary finite value. -/
def f32Div (x y : Dy) : Dy :=
  if x.num = 0 then ⟨0, 0⟩
  else
    let d := divRoundEvenSig x.num.natAbs y.num.natAbs
    let sgn := (decide (x.num < 0)) != (decide (y.num < 0))
    ⟨if sgn then -d.num else d.num, d.exp + x.exp - y.exp⟩

/-- Binary32 subtraction: round the exact difference. -/
def f32Sub (x y : Dy) : Dy := rndDy (dySub x y)

/-- Binary32 multiplication: round the exact product. -/
def f32Mul (x y : Dy) : Dy := rndDy (dyMul x y)

/-- `f32::round`: to the nearest integer, half away from zero. -/
def dyRoundHalfAway (x : Dy) : Int :=
  if 0 ≤ x.exp then x.num * 2 ^ x.exp.toNat
  else
    let s := 2 ^ (-x.exp).toNat
    let r := (x.num.natAbs + s / 2) / s
    if x.num < 0 then -(r : Int) else (r : Int)

/-! ### `src/ascii_spoof.rs`: edit distance and similarity -/

/-- The substitution cost of the DP: `if ca == cb { 0 } else { 1 }`. -/
def cost (x y : Nat) : Nat := if x = y then 0 else 1

/-- One inner step of the DP of `levenshtein_distance`: given the cell
diagonally above-left (`diag`), the cell to the left (`left`), the remaining
bytes of `b` and the remaining cells of the previous row, produce the rest of
the next row.  Mirrors
`matrix[i+1][j+1] = (matrix[i][j+1]+1).min(matrix[i+1][j]+1).min(matrix[i][j]+cost)`. -/
def levRowAux (ca : Nat) : Nat → Nat → List Nat → List Nat → List Nat
  | _, _, [], _ => []
  | _, _, _, [] => []
  | diag, left, cb :: bs, p :: ps =>
    let cell := Nat.min (Nat.min (p + 1) (left + 1)) (diag + cost ca cb)
    cell :: levRowAux ca p cell bs ps

/-- Row `i+1` of the DP matrix from row `i`: the first cell is
`matrix[i+1][0] = i+1`, the rest comes from `levRowAux`. -/
def levRow (ca : Nat) (b : List Nat) : List Nat → List Nat
  | [] => []
  | p0 :: ps => (p0 + 1) :: levRowAux ca p0 (p0 + 1) b ps

/-- `levenshtein_distance` from `src/ascii_spoof.rs`, over byte lists: the
early returns for equal and empty inputs, then the row-by-row DP whose row 0
is `0, 1, …, b.len()` and whose answer is the last cell of the last row. -/
def levenshtein_distance (a b : List Nat) : Nat :=
  if a = b then 0
  else if a.length = 0 then b.length
  else if b.length = 0 then a.length
  else (a.foldl (fun row ca => levRow ca b row) (List.range (b.length + 1))).getLastD 0

/-- The scalar tail of `similarity_ratio` for `max_len ≠ 0`, shared with the
specification-side definition:
`ratio = 1.0f32 - distance as f32 / max_len as f32`, then
`(100.0f32 * ratio).round().max(0.0) as u8` (the cast saturates to `0..=255`). -/
def f32SimilarityFromDistance (distance max_len : Nat) : Nat :=
  let ratio := f32Sub ⟨1, 0⟩ (f32Div (f32OfNat distance) (f32OfNat max_len))
  let scaled := f32Mul ⟨100, 0⟩ ratio
  (min (max (dyRoundHalfAway scaled) 0) 255).toNat

/-- `similarity_ratio` from `src/ascii_spoof.rs`: `100` when both inputs are
empty, otherwise the rounded, clamped `f32` ratio of the byte-level edit
distance to the longer byte length. -/
def similarity_ratio (a b : List Nat) : Nat :=
  let max_len := max a.length b.length
  if max_len = 0 then 100
  else f32SimilarityFromDistance (levenshtein_distance a b) max_len

/-- `normalize` from `src/ascii_spoof.rs` is `str::to_lowercase`, a Unicode
case mapping provided by the Rust standard library, not by this repository;
it is passed in as the capability `lower`. -/
def normalizeLower (lower : List Nat → List Nat) (value : List Nat) : List Nat :=
  lower value

/-- Rust `u8::is_ascii_alphanumeric` on a byte. -/
def isAsciiAlphanumeric (c : Nat) : Bool :=
  (48 ≤ c && c ≤ 57) || (65 ≤ c && c ≤ 90) || (97 ≤ c && c ≤ 122)

/-- `strip_non_alnum` from `src/ascii_spoof.rs`.  The source filters `chars()`;
on byte lists this is the same filter, because the ASCII alphanumerics are
single bytes and every byte of a multi-byte character is `≥ 0x80`. -/
def strip_non_alnum (value : List Nat) : List Nat :=
  value.filter isAsciiAlphanumeric

/-- `str::rfind` for a single-byte pattern: the byte index of the last
occurrence of `t`. -/
def rfindByte (t : Nat) : List Nat → Option Nat
  | [] => none
  | c :: rest =>
    match rfindByte t rest with
    | some j => some (j + 1)
    | none => if c = t then some 0 else none

/-- `get_base_domain` from `src/ascii_spoof.rs`: cut at the last `'.'` when
its index is positive, otherwise (no dot, or a dot only at index 0) return
the input unchanged. -/
def get_base_domain (domain : List Nat) : List Nat :=
  match rfindByte 46 domain with
  | some idx => if 0 < idx then domain.take idx else domain
  | none => domain

/-! ### Specification-side definitions for the similarity claims -/

/-- The unit-cost Levenshtein edit distance (insertion, deletion,
substitution), as the claims define it: the textbook recursion. -/
def levSpec : List Nat → List Nat → Nat
  | [], ys => ys.length
  | x :: xs, [] => (x :: xs).length
  | x :: xs, y :: ys =>
    Nat.min (levSpec xs (y :: ys) + 1)
      (Nat.min (levSpec (x :: xs) ys + 1)
        (levSpec xs ys + cost x y))

/-- `round(p / q)` for integers with `q > 0`, half away from zero, in exact
rational arithmetic. -/
def roundHalfAwayRat (p q : Int) : Int :=
  if 0 ≤ p then (2 * p + q) / (2 * q) else -((2 * (-p) + q) / (2 * q))

/-- The similarity formula exactly as the claim states it, in exact rational
arithmetic: `round(100 * (1 - d / max(len a, len b)))` clamped to `≥ 0`, with
`d` the Levenshtein distance, and `100` when both inputs are empty. -/
def similaritySpecExact (a b : List Nat) : Nat :=
  let m := max a.length b.length
  if m = 0 then 100
  else (max (roundHalfAwayRat (100 * ((m : Int) - (levSpec a b : Int))) (m : Int)) 0).toNat

/-- The similarity formula with its arithmetic carried out in IEEE-754
binary32, as the code actually evaluates it: `d` is still the textbook
Levenshtein distance, but the cast, division, subtraction and multiplication
round to `f32` before the final half-away rounding and clamping. -/
def similaritySpecF32 (a b : List Nat) : Nat :=
  if max a.length b.length = 0 then 100
  else f32SimilarityFromDistance (levSpec a b) (max a.length b.length)

/-! ### `src/ascii_spoof.rs`: brand matcher and candidate-store fuzzy matcher -/

/-- One curated impersonation target of `data/most-phished.json`
(`MostPhishedEntry` in the source).  The curated list itself is a data file
outside the code, so the matcher is parameterised over the list. -/
structure MostPhishedEntry where
  domain : List Nat
  base : List Nat
  aliases : List (List Nat)
deriving DecidableEq

/-- `AsciiResult` from `src/types.rs`: a matched domain and its similarity. -/
structure AsciiResult where
  domain : List Nat
  similarity : Nat
deriving DecidableEq

/-- The descending comparison `|a, b| b.similarity.cmp(&a.similarity)` that
both matchers hand to the stable `sort_by`. -/
def resultsDescLE (x y : AsciiResult) : Bool :=
  y.similarity ≤ x.similarity

/-- `scored.sort_by(descending)` then `truncate(MAX_RESULTS = 3)`, the common
tail of both matchers.  Rust's `sort_by` is a stable merge sort, modelled by
`List.mergeSort`, which is also stable. -/
def sortTruncResults (l : List AsciiResult) : List AsciiResult :=
  (l.mergeSort resultsDescLE).take 3

/-- The candidate set `detect_from_most_phished` builds from the input:
normalized input, its base domain, and the alphanumeric-only form of each.
The source collects these into a `HashSet`; only the maximum score over the
set is ever observed, so the (possibly duplicated) list is equivalent. -/
def brandCandidates (lower : List Nat → List Nat) (domain : List Nat) : List (List Nat) :=
  let input := normalizeLower lower domain
  let input_base := get_base_domain input
  [input, input_base, strip_non_alnum input, strip_non_alnum input_base]

/-- The target set of one curated entry: its domain, base and aliases (again
a `HashSet` in the source, observed only through the maximum). -/
def entryTargets (e : MostPhishedEntry) : List (List Nat) :=
  e.domain :: e.base :: e.aliases

/-- The entry's best score: the running maximum of the similarity over every
candidate × target pair, as the nested `for` loops of the source compute it. -/
def bestScore (cands targets : List (List Nat)) : Nat :=
  cands.foldl (fun acc c => targets.foldl (fun acc2 t => max acc2 (similarity_ratio c t)) acc) 0

/-- The entries `detect_from_most_phished` keeps before sorting: those whose
best score reaches `MIN_SIMILARITY = 80`, pushed in curated-list order,
emitting `entry.domain` with the best score. -/
def keptBrandResults (bl : List MostPhishedEntry) (lower : List Nat → List Nat)
    (domain : List Nat) : List AsciiResult :=
  bl.filterMap fun e =>
    let best := bestScore (brandCandidates lower domain) (entryTargets e)
    if 80 ≤ best then some ⟨e.domain, best⟩ else none

/-- `detect_from_most_phished` from `src/ascii_spoof.rs`. -/
def detect_from_most_phished (bl : List MostPhishedEntry) (lower : List Nat → List Nat)
    (domain : List Nat) : List AsciiResult :=
  sortTruncResults (keptBrandResults bl lower domain)

/-- `str::chars().next()` on the byte list of a valid UTF-8 string: decode
the leading code point (1 to 4 bytes).  The don't-care answers on invalid
UTF-8 are irrelevant because Rust strings are always valid. -/
def utf8FirstChar : List Nat → Option Nat
  | [] => none
  | b :: rest =>
    if b < 0x80 then some b
    else if b < 0xE0 then
      match rest with
      | b2 :: _ => some ((b - 0xC0) * 0x40 + (b2 - 0x80))
      | [] => some b
    else if b < 0xF0 then
      match rest with
      | b2 :: b3 :: _ => some ((b - 0xE0) * 0x1000 + (b2 - 0x80) * 0x40 + (b3 - 0x80))
      | _ => some b
    else
      match rest with
      | b2 :: b3 :: b4 :: _ =>
        some ((b - 0xF0) * 0x40000 + (b2 - 0x80) * 0x1000 + (b3 - 0x80) * 0x40 + (b4 - 0x80))
      | _ => some b

/-- The scoring step of the fuzzy matcher: map every candidate from the
corpus to an `AsciiResult` and keep scores `≥ MIN_SIMILARITY = 80`. -/
def fuzzyScored (normalized : List Nat) (candidates : List (List Nat)) : List AsciiResult :=
  (candidates.map fun c => AsciiResult.mk c (similarity_ratio normalized c)).filter
    fun r => 80 ≤ r.similarity

/-- `detect_impersonation` from `src/ascii_spoof.rs`.  The candidate store
(`db::open` + `db::fetch_candidates`, a SQLite query in `src/db.rs`) is the
injected capability `corpus`, taking the first character, the length band
`len ± LENGTH_BAND` (`saturating_sub` is `Nat` subtraction) and
`MAX_CANDIDATES = 5000`; either storage failure surfaces as the `Except`
error.  The brand matcher runs first and short-circuits the corpus. -/
def detect_impersonation {ε : Type} (bl : List MostPhishedEntry)
    (lower : List Nat → List Nat)
    (corpus : Nat → Nat → Nat → Nat → Except ε (List (List Nat)))
    (domain : List Nat) : Except ε (List AsciiResult) :=
  let mp := detect_from_most_phished bl lower domain
  if mp.isEmpty = false then Except.ok mp
  else
    let normalized := normalizeLower lower domain
    match utf8FirstChar normalized with
    | none => Except.ok []
    | some fc =>
      (corpus fc (normalized.length - 2) (normalized.length + 2) 5000).map
        fun candidates => sortTruncResults (fuzzyScored normalized candidates)

/-- The result-list invariant of the claims: at most 3 entries, sorted
descending by similarity, every entry `≥ 80`, and equal to the first 3
entries of the manifestly stable sort of the kept list (sorting index-tagged
entries by score descending, breaking ties by original position). -/
def resultsInvariant (out kept : List AsciiResult) : Prop :=
  out.length ≤ 3 ∧
  out.Pairwise (fun x y => y.similarity ≤ x.similarity) ∧
  (∀ r ∈ out, 80 ≤ r.similarity) ∧
  out = ((kept.enum.mergeSort (List.enumLE resultsDescLE)).map (fun p => p.2)).take 3

/-- The original claim's reading of base-domain extraction: drop the final
dot-separated label together with its leading dot (reverse the string, drop
the trailing label, drop the dot, reverse back). -/
def removeFinalLabel (s : List Nat) : List Nat :=
  (((s.reverse.dropWhile fun c => c ≠ 46).drop 1)).reverse

/-! ### `src/idn.rs`: confusable expansion and the registration-gated scan -/

/-- `PunyMapping` from `src/types.rs`: one substituted position, recorded as
the original non-ASCII code point and the ASCII code point that replaced it
(the source stores each as a one-character string). -/
structure PunyMapping where
  unicode : Nat
  ascii : Nat
deriving DecidableEq

/-- `IdnResult` from `src/types.rs`. -/
structure IdnResult where
  domain : List Nat
  mappings : List PunyMapping
  is_registered : Bool
deriving DecidableEq

/-- `IdnResponse` from `src/types.rs`. -/
structure IdnResponse where
  q : List Nat
  ascii : Bool
  puny : Bool
  results : List IdnResult
deriving DecidableEq

/-- Rust `char::is_whitespace`: the Unicode `White_Space` code points. -/
def isWhitespaceChar (c : Nat) : Bool :=
  c = 0x09 || c = 0x0A || c = 0x0B || c = 0x0C || c = 0x0D || c = 0x20 ||
  c = 0x85 || c = 0xA0 || c = 0x1680 || (0x2000 ≤ c && c ≤ 0x200A) ||
  c = 0x2028 || c = 0x2029 || c = 0x202F || c = 0x205F || c = 0x3000

/-- `decode_idn_to_unicode` from `src/idn.rs`: reject inputs with any
whitespace character, then run `idna::domain_to_unicode` — an external crate,
injected here as the capability `dtu` returning the decoded code points and
whether decoding reported errors (`errors.is_err()`). -/
def decode_idn_to_unicode (dtu : List Nat → List Nat × Bool)
    (idn_domain : List Nat) : Option (List Nat) :=
  if idn_domain.any isWhitespaceChar then none
  else if (dtu idn_domain).2 then none
  else some (dtu idn_domain).1

/-- The inner replacement loop of `normalize_domain`: extend `next` by
`pre ++ replacement` for each replacement in turn, breaking as soon as
`next.len() >= max_normalized` (checked before each push). -/
def ndInner (maxN : Nat) (pre : List Nat) : List (List Nat) → List (List Nat) → List (List Nat)
  | [], next => next
  | r :: rs, next =>
    if maxN ≤ next.length then next
    else ndInner maxN pre rs (next ++ [pre ++ r])

/-- The frontier loop of `normalize_domain`: run the inner loop for each
current combination, breaking between combinations once the cap is reached. -/
def ndOuter (maxN : Nat) (repls : List (List Nat)) :
    List (List Nat) → List (List Nat) → List (List Nat)
  | [], next => next
  | p :: ps, next =>
    let next2 := ndInner maxN p repls next
    if maxN ≤ next2.length then next2
    else ndOuter maxN repls ps next2

/-- The character loop of `normalize_domain`: look up the replacements of the
character (defaulting to the character itself), build the new frontier from
an empty `next`, and stop once the frontier has reached the cap. -/
def ndChars (confusables : Nat → Option (List (List Nat))) (maxN : Nat) :
    List Nat → List (List Nat) → List (List Nat)
  | [], combinations => combinations
  | ch :: rest, combinations =>
    let repls := (confusables ch).getD [[ch]]
    let next := ndOuter maxN repls combinations []
    if maxN ≤ next.length then next
    else ndChars confusables maxN rest next

/-- `normalize_domain` from `src/idn.rs`: the frontier expansion of the
domain's characters, seeded with the single empty string.  The confusable
table (`data/puny-mappings.json`, keyed by one-character strings) is the
function `confusables`; each replacement is a string of code points. -/
def normalize_domain (domain : List Nat) (confusables : Nat → Option (List (List Nat)))
    (max_normalized : Nat) : List (List Nat) :=
  ndChars confusables max_normalized domain [[]]

/-- Specification-side: all full substitutions of a domain — every in-order
concatenation of one replacement per character, the character itself when the
table has no entry. -/
def allSubstitutions (confusables : Nat → Option (List (List Nat))) :
    List Nat → List (List Nat)
  | [] => [[]]
  | c :: cs =>
    ((confusables c).getD [[c]]).flatMap fun r =>
      (allSubstitutions confusables cs).map fun w => r ++ w

/-- `map_unicode_to_ascii` from `src/idn.rs`: walk both strings position by
position up to the shorter length and record a mapping wherever the original
code point is non-ASCII (`> 127`). -/
def map_unicode_to_ascii (unicode_domain normalized_domain : List Nat) : List PunyMapping :=
  (unicode_domain.zip normalized_domain).filterMap fun p =>
    if 127 < p.1 then some ⟨p.1, p.2⟩ else none

/-- The scan loop of `puny2url_with_checker`, one iteration per generated
variant: stop on the shared check budget, on the active result cap
(`max_results` before a timeout was seen, `max_results_timeout` after), and
immediately after the variant whose check reports a timeout; push an
`IdnResult` for every registered variant; propagate checker errors.  Besides
the source's `(results, timed_out)` state the model counts the registration
checks performed, so the budget claims can observe them. -/
def scanGo {ε : Type} (checker : List Nat → Nat → Except ε (Bool × Bool)) (wt : Nat)
    (ud : List Nat) (maxChecks maxRes maxResT : Nat) :
    Nat → List (List Nat) → List IdnResult → Bool →
    Except ε (List IdnResult × Bool) × Nat
  | _, [], results, timed_out => (Except.ok (results, timed_out), 0)
  | checks, d :: rest, results, timed_out =>
    if maxChecks ≤ checks then (Except.ok (results, timed_out), 0)
    else if timed_out = false ∧ maxRes ≤ results.length then
      (Except.ok (results, timed_out), 0)
    else if timed_out = true ∧ maxResT ≤ results.length then
      (Except.ok (results, timed_out), 0)
    else
      match checker d wt with
      | Except.error e => (Except.error e, 1)
      | Except.ok (registered, lookup_timed_out) =>
        let timed_out2 := timed_out || lookup_timed_out
        let results2 :=
          if registered then results ++ [⟨d, map_unicode_to_ascii ud d, true⟩]
          else results
        if timed_out2 then (Except.ok (results2, timed_out2), 1)
        else
          let o := scanGo checker wt ud maxChecks maxRes maxResT (checks + 1) rest results2 timed_out2
          (o.1, o.2 + 1)

/-- The post-loop truncation of `puny2url_with_checker`: once a timeout was
seen, cut the accumulated results down to `max_results_timeout`. -/
def finalTruncate (maxResT : Nat) (timedOut : Bool) (results : List IdnResult) :
    List IdnResult :=
  if timedOut = true ∧ maxResT < results.length then results.take maxResT else results

/-- What one IDN scan produced, with the two instrumentation fields:
`checkCount` counts the calls to the registration checker and `expanded`
records whether the confusable expander ran; `sawTimeout` is the loop's
`timed_out` flag. -/
structure PunyScanOutcome (ε : Type) where
  result : Except ε (List IdnResult)
  checkCount : Nat
  expanded : Bool
  sawTimeout : Bool

/-- `puny2url_with_checker` from `src/idn.rs`.  The budgets are the
environment-sourced values (`PUNY_MAX_NORMALIZED`, `WHOIS_MAX_CHECKS`,
`PUNY_MAX_RESULTS`, `PUNY_MAX_RESULTS_TIMEOUT`, `WHOIS_TIMEOUT_MS`), passed
as parameters; the claims quantify over them.  A failed decode returns `Ok`
with no results before the expander or the checker could run. -/
def puny2url_with_checker {ε : Type} (dtu : List Nat → List Nat × Bool)
    (confusables : Nat → Option (List (List Nat)))
    (maxN maxChecks maxRes maxResT wt : Nat)
    (checker : List Nat → Nat → Except ε (Bool × Bool))
    (input : List Nat) : PunyScanOutcome ε :=
  match decode_idn_to_unicode dtu input with
  | none => ⟨Except.ok [], 0, false, false⟩
  | some ud =>
    let variants := normalize_domain ud confusables maxN
    match scanGo checker wt ud maxChecks maxRes maxResT 0 variants [] false with
    | (Except.ok (results, timedOut), n) =>
      ⟨Except.ok (finalTruncate maxResT timedOut results), n, true, timedOut⟩
    | (Except.error e, n) => ⟨Except.error e, n, true, false⟩

/-- `lookup_idn` from `src/idn.rs`: wrap the scan results in an
`IdnResponse` echoing the query. -/
def lookup_idn {ε : Type} (dtu : List Nat → List Nat × Bool)
    (confusables : Nat → Option (List (List Nat)))
    (maxN maxChecks maxRes maxResT wt : Nat)
    (checker : List Nat → Nat → Except ε (Bool × Bool))
    (input : List Nat) : Except ε IdnResponse :=
  (puny2url_with_checker dtu confusables maxN maxChecks maxRes maxResT wt checker input).result.map
    fun results => ⟨input, false, true, results⟩

/-- The tail of one specification-side DP row: the values
`levSpec u (pre ++ [c₁])`, `levSpec u (pre ++ [c₁, c₂])`, … for the
remaining column characters. -/
def rowT (u : List Nat) : List Nat → List Nat → List Nat
  | _, [] => []
  | pre, c :: cs => levSpec u (pre ++ [c]) :: rowT u (pre ++ [c]) cs

/-- The specification-side value of a whole DP row: distances from `u` to
every prefix of `pre ++ bs` extending `pre`. -/
def specRowFull (u pre bs : List Nat) : List Nat :=
  levSpec u pre :: rowT u pre bs

/-! ## Theorems -/

/-! ### The DP of `levenshtein_distance` computes the textbook edit distance -/

theorem levSpec_nil_left (ys : List Nat) : levSpec [] ys = ys.length := by
  simp [levSpec]

theorem levSpec_nil_right (xs : List Nat) : levSpec xs [] = xs.length := by
  cases xs <;> simp [levSpec]

theorem cost_le_one (x y : Nat) : cost x y ≤ 1 := by
  unfold cost; split <;> omega

/-- The facts `omega` needs about a right-nested triple minimum. -/
theorem min3_facts (p q r : Nat) :
    Nat.min p (Nat.min q r) ≤ p ∧ Nat.min p (Nat.min q r) ≤ q ∧
      Nat.min p (Nat.min q r) ≤ r ∧
      (Nat.min p (Nat.min q r) = p ∨ Nat.min p (Nat.min q r) = q ∨
        Nat.min p (Nat.min q r) = r) := by
  refine ⟨Nat.min_le_left _ _,
    le_trans (Nat.min_le_right _ _) (Nat.min_le_left _ _),
    le_trans (Nat.min_le_right _ _) (Nat.min_le_right _ _), ?_⟩
  rcases min_choice p (Nat.min q r) with h | h
  · exact Or.inl h
  · rcases min_choice q r with h2 | h2
    · exact Or.inr (Or.inl (h.trans h2))
    · exact Or.inr (Or.inr (h.trans h2))

/-- The unfolding of `levSpec` on two nonempty strings, as an equation. -/
theorem levSpec_cons_cons (x y : Nat) (xs ys : List Nat) :
    levSpec (x :: xs) (y :: ys) =
      Nat.min (levSpec xs (y :: ys) + 1)
        (Nat.min (levSpec (x :: xs) ys + 1) (levSpec xs ys + cost x y)) := by
  rw [levSpec]

/-- The edit distance is at least the length difference. -/
theorem levSpec_bounds (xs ys : List Nat) :
    xs.length - ys.length ≤ levSpec xs ys ∧ ys.length - xs.length ≤ levSpec xs ys := by
  have H : ∀ (n : Nat) (xs ys : List Nat), xs.length + ys.length ≤ n →
      xs.length - ys.length ≤ levSpec xs ys ∧ ys.length - xs.length ≤ levSpec xs ys := by
    intro n
    induction n with
    | zero =>
      intro xs ys h
      match xs, ys with
      | [], [] => simp [levSpec]
      | [], _ :: _ => simp at h
      | _ :: _, _ => simp at h
    | succ n ih =>
      intro xs ys h
      match xs, ys with
      | [], ys => simp [levSpec]
      | x :: xs, [] => simp [levSpec]
      | x :: xs, y :: ys =>
        have h1 := ih xs (y :: ys) (by simp at h ⊢; omega)
        have h2 := ih (x :: xs) ys (by simp at h ⊢; omega)
        have h3 := ih xs ys (by simp at h ⊢; omega)
        have hc := cost_le_one x y
        rw [levSpec_cons_cons]
        simp only [List.length_cons] at h1 h2 h3 ⊢
        simp only [le_min_iff]
        omega
  exact H (xs.length + ys.length) xs ys le_rfl

/-- The facts `omega` needs about a left-nested triple minimum. -/
theorem min3L_facts (p q r : Nat) :
    Nat.min (Nat.min p q) r ≤ p ∧ Nat.min (Nat.min p q) r ≤ q ∧
      Nat.min (Nat.min p q) r ≤ r ∧
      (Nat.min (Nat.min p q) r = p ∨ Nat.min (Nat.min p q) r = q ∨
        Nat.min (Nat.min p q) r = r) := by
  refine ⟨le_trans (Nat.min_le_left _ _) (Nat.min_le_left _ _),
    le_trans (Nat.min_le_left _ _) (Nat.min_le_right _ _),
    Nat.min_le_right _ _, ?_⟩
  rcases min_choice (Nat.min p q) r with h | h
  · rcases min_choice p q with h2 | h2
    · exact Or.inl (h.trans h2)
    · exact Or.inr (Or.inl (h.trans h2))
  · exact Or.inr (Or.inr h)

/-- The key recurrence behind the DP: the distance of `u ++ [x]` and
`v ++ [y]` from the three distances one character shorter, exactly in the
shape of the matrix update of `levenshtein_distance`. -/
theorem levSpec_snoc_snoc (x y : Nat) (u v : List Nat) :
    levSpec (u ++ [x]) (v ++ [y]) =
      Nat.min (Nat.min (levSpec u (v ++ [y]) + 1) (levSpec (u ++ [x]) v + 1))
        (levSpec u v + cost x y) := by
  have H : ∀ (n : Nat) (u v : List Nat), u.length + v.length ≤ n →
      levSpec (u ++ [x]) (v ++ [y]) =
        Nat.min (Nat.min (levSpec u (v ++ [y]) + 1) (levSpec (u ++ [x]) v + 1))
          (levSpec u v + cost x y) := by
    intro n
    induction n with
    | zero =>
      intro u v h
      match u, v with
      | [], [] =>
        simp only [List.nil_append]
        rw [levSpec_cons_cons]
        simp [levSpec, cost]
      | [], _ :: _ => simp at h
      | _ :: _, _ => simp at h
    | succ n ih =>
      intro u v h
      match u, v with
      | [], [] =>
        simp only [List.nil_append]
        rw [levSpec_cons_cons]
        simp [levSpec, cost]
      | [], b :: vt =>
        have hB := (levSpec_bounds [x] vt).2
        have hIH := ih [] vt (by simp at h ⊢; omega)
        simp only [List.nil_append, List.cons_append] at hIH ⊢
        have E0 := levSpec_cons_cons x b [] (vt ++ [y])
        have E2 := levSpec_cons_cons x b [] vt
        have F0 := min3_facts (levSpec [] (b :: (vt ++ [y])) + 1)
          (levSpec [x] (vt ++ [y]) + 1) (levSpec [] (vt ++ [y]) + cost x b)
        rw [← E0] at F0
        have F2 := min3_facts (levSpec [] (b :: vt) + 1)
          (levSpec [x] vt + 1) (levSpec [] vt + cost x b)
        rw [← E2] at F2
        have FIH := min3L_facts (levSpec [] (vt ++ [y]) + 1) (levSpec [x] vt + 1)
          (levSpec [] vt + cost x y)
        rw [← hIH] at FIH
        have hc1 := cost_le_one x b
        have hc2 := cost_le_one x y
        simp only [levSpec_nil_left, List.length_append, List.length_cons,
          List.length_nil] at F0 F2 FIH hB ⊢
        refine le_antisymm ?_ ?_ <;> simp only [le_min_iff, min_le_iff] <;> omega
      | a :: ut, [] =>
        have hB := (levSpec_bounds ut [y]).1
        have hIH := ih ut [] (by simp at h ⊢; omega)
        simp only [List.nil_append, List.append_nil, List.cons_append] at hIH ⊢
        have E0 := levSpec_cons_cons a y (ut ++ [x]) []
        have E2 := levSpec_cons_cons a y ut []
        have F0 := min3_facts (levSpec (ut ++ [x]) [y] + 1)
          (levSpec (a :: (ut ++ [x])) [] + 1) (levSpec (ut ++ [x]) [] + cost a y)
        rw [← E0] at F0
        have F2 := min3_facts (levSpec ut [y] + 1)
          (levSpec (a :: ut) [] + 1) (levSpec ut [] + cost a y)
        rw [← E2] at F2
        have FIH := min3L_facts (levSpec ut [y] + 1) (levSpec (ut ++ [x]) [] + 1)
          (levSpec ut [] + cost x y)
        rw [← hIH] at FIH
        have hc1 := cost_le_one a y
        have hc2 := cost_le_one x y
        simp only [levSpec_nil_right, List.length_append, List.length_cons,
          List.length_nil] at F0 F2 FIH hB ⊢
        refine le_antisymm ?_ ?_ <;> simp only [le_min_iff, min_le_iff] <;> omega
      | a :: ut, b :: vt =>
        have h1 := ih ut (b :: vt) (by simp at h ⊢; omega)
        have h2 := ih (a :: ut) vt (by simp at h ⊢; omega)
        have h3 := ih ut vt (by simp at h ⊢; omega)
        simp only [List.cons_append] at h1 h2 h3 ⊢
        have hc1 := cost_le_one a b
        have hc2 := cost_le_one x y
        have E0 := levSpec_cons_cons a b (ut ++ [x]) (vt ++ [y])
        have EL := levSpec_cons_cons a b ut (vt ++ [y])
        have ER := levSpec_cons_cons a b (ut ++ [x]) vt
        have EM := levSpec_cons_cons a b ut vt
        have F0 := min3_facts (levSpec (ut ++ [x]) (b :: (vt ++ [y])) + 1)
          (levSpec (a :: (ut ++ [x])) (vt ++ [y]) + 1)
          (levSpec (ut ++ [x]) (vt ++ [y]) + cost a b)
        rw [← E0] at F0
        have FL := min3_facts (levSpec ut (b :: (vt ++ [y])) + 1)
          (levSpec (a :: ut) (vt ++ [y]) + 1) (levSpec ut (vt ++ [y]) + cost a b)
        rw [← EL] at FL
        have FR := min3_facts (levSpec (ut ++ [x]) (b :: vt) + 1)
          (levSpec (a :: (ut ++ [x])) vt + 1) (levSpec (ut ++ [x]) vt + cost a b)
        rw [← ER] at FR
        have FM := min3_facts (levSpec ut (b :: vt) + 1)
          (levSpec (a :: ut) vt + 1) (levSpec ut vt + cost a b)
        rw [← EM] at FM
        have G1 := min3L_facts (levSpec ut (b :: (vt ++ [y])) + 1)
          (levSpec (ut ++ [x]) (b :: vt) + 1) (levSpec ut (b :: vt) + cost x y)
        rw [← h1] at G1
        have G2 := min3L_facts (levSpec (a :: ut) (vt ++ [y]) + 1)
          (levSpec (a :: (ut ++ [x])) vt + 1) (levSpec (a :: ut) vt + cost x y)
        rw [← h2] at G2
        have G3 := min3L_facts (levSpec ut (vt ++ [y]) + 1)
          (levSpec (ut ++ [x]) vt + 1) (levSpec ut vt + cost x y)
        rw [← h3] at G3
        obtain ⟨F0a, F0b, F0c, F0d⟩ := F0
        obtain ⟨FLa, FLb, FLc, FLd⟩ := FL
        obtain ⟨FRa, FRb, FRc, FRd⟩ := FR
        obtain ⟨FMa, FMb, FMc, FMd⟩ := FM
        obtain ⟨G1a, G1b, G1c, G1d⟩ := G1
        obtain ⟨G2a, G2b, G2c, G2d⟩ := G2
        obtain ⟨G3a, G3b, G3c, G3d⟩ := G3
        refine le_antisymm ?_ ?_
        · simp only [le_min_iff]
          refine ⟨⟨?_, ?_⟩, ?_⟩
          · clear F0d FRd FMd G1d G2d G3d
            rcases FLd with h' | h' | h' <;> omega
          · clear F0d FLd FMd G1d G2d G3d
            rcases FRd with h' | h' | h' <;> omega
          · clear F0d FLd FRd G1d G2d G3d
            rcases FMd with h' | h' | h' <;> omega
        · simp only [min_le_iff]
          clear FLd FRd FMd
          rcases F0d with h' | h' | h'
          · clear G2d G3d
            rcases G1d with h2 | h2 | h2 <;> omega
          · clear G1d G3d
            rcases G2d with h2 | h2 | h2 <;> omega
          · clear G1d G2d
            rcases G3d with h2 | h2 | h2 <;> omega
  exact H (u.length + v.length) u v le_rfl

/-- A string's distance to itself is zero. -/
theorem levSpec_self (xs : List Nat) : levSpec xs xs = 0 := by
  induction xs with
  | nil => simp [levSpec]
  | cons x t ih => simp [levSpec, ih, cost]

/-- `levRowAux` maps the tail of the specification row of `u` to the tail of
the specification row of `u ++ [ca]`. -/
theorem levRowAux_rowT (ca : Nat) (u : List Nat) :
    ∀ (bs pre : List Nat),
      levRowAux ca (levSpec u pre) (levSpec (u ++ [ca]) pre) bs (rowT u pre bs) =
        rowT (u ++ [ca]) pre bs := by
  intro bs
  induction bs with
  | nil => intro pre; simp [rowT, levRowAux]
  | cons cb cs ih =>
    intro pre
    show levRowAux ca (levSpec u pre) (levSpec (u ++ [ca]) pre) (cb :: cs)
        (levSpec u (pre ++ [cb]) :: rowT u (pre ++ [cb]) cs) = _
    rw [levRowAux]
    have hcell :
        Nat.min (Nat.min (levSpec u (pre ++ [cb]) + 1) (levSpec (u ++ [ca]) pre + 1))
            (levSpec u pre + cost ca cb) =
          levSpec (u ++ [ca]) (pre ++ [cb]) := (levSpec_snoc_snoc ca cb u pre).symm
    rw [hcell, ih (pre ++ [cb])]
    rfl

/-- One DP step advances the specification row by one character of `a`. -/
theorem levRow_specRowFull (ca : Nat) (u b : List Nat) :
    levRow ca b (specRowFull u [] b) = specRowFull (u ++ [ca]) [] b := by
  show levRow ca b (levSpec u [] :: rowT u [] b) = _
  rw [levRow]
  have h0 : levSpec u [] + 1 = levSpec (u ++ [ca]) [] := by
    simp [levSpec_nil_right]
  rw [specRowFull, ← h0, ← levRowAux_rowT ca u b [], h0]

/-- The whole fold of `levenshtein_distance` computes the specification row
of its accumulated first argument. -/
theorem foldl_levRow (b : List Nat) :
    ∀ (a u : List Nat),
      a.foldl (fun row ca => levRow ca b row) (specRowFull u [] b) =
        specRowFull (u ++ a) [] b := by
  intro a
  induction a with
  | nil => intro u; simp
  | cons ca rest ih =>
    intro u
    rw [List.foldl_cons, levRow_specRowFull, ih (u ++ [ca])]
    simp

/-- Row 0 of the DP (`0, 1, …, b.len()`) is the specification row of the
empty string. -/
theorem range_specRowFull (b : List Nat) :
    List.range (b.length + 1) = specRowFull [] [] b := by
  have H : ∀ (bs pre : List Nat), rowT [] pre bs = List.range' (pre.length + 1) bs.length := by
    intro bs
    induction bs with
    | nil => intro pre; simp [rowT]
    | cons c cs ih =>
      intro pre
      rw [rowT, ih (pre ++ [c])]
      simp [levSpec_nil_left, List.range']
  rw [specRowFull, H b [], levSpec_nil_left]
  rw [List.range_eq_range']
  simp [List.range']

/-- The last cell of the specification row is the distance to the full
column string. -/
theorem getLastD_specRowFull :
    ∀ (bs u pre : List Nat) (d : Nat),
      (specRowFull u pre bs).getLastD d = levSpec u (pre ++ bs) := by
  intro bs
  induction bs with
  | nil => intro u pre d; simp [specRowFull, rowT]
  | cons c cs ih =>
    intro u pre d
    show (levSpec u pre :: specRowFull u (pre ++ [c]) cs).getLastD d = _
    rw [List.getLastD_cons, ih u (pre ++ [c])]
    simp

/-- `levenshtein_distance` (the DP with its early returns) computes the
textbook Levenshtein edit distance. -/
theorem levenshtein_eq_levSpec (a b : List Nat) :
    levenshtein_distance a b = levSpec a b := by
  unfold levenshtein_distance
  by_cases hab : a = b
  · simp [hab, levSpec_self]
  · simp only [hab, if_false, ite_false]
    by_cases ha : a.length = 0
    · have : a = [] := List.length_eq_zero.mp ha
      simp [this, levSpec_nil_left]
    · simp only [ha, if_false, ite_false]
      by_cases hb : b.length = 0
      · have : b = [] := List.length_eq_zero.mp hb
        simp [this, levSpec_nil_right]
      · simp only [hb, if_false, ite_false]
        rw [range_specRowFull, foldl_levRow b a [], getLastD_specRowFull]
        simp

/-- Distance between two runs of the same byte: the length difference. -/
theorem levSpec_replicate (x : Nat) :
    ∀ n m : Nat, levSpec (List.replicate n x) (List.replicate m x) = (n - m) + (m - n) := by
  intro n
  induction n with
  | zero => intro m; simp [levSpec_nil_left]
  | succ n ih =>
    intro m
    match m with
    | 0 => simp [levSpec_nil_right]
    | m + 1 =>
      have hmid := levSpec_bounds (List.replicate (n + 1) x) (List.replicate m x)
      simp only [List.length_replicate] at hmid
      have hexp : levSpec (List.replicate (n + 1) x) (List.replicate (m + 1) x) =
          Nat.min (levSpec (List.replicate n x) (List.replicate (m + 1) x) + 1)
            (Nat.min (levSpec (List.replicate (n + 1) x) (List.replicate m x) + 1)
              (levSpec (List.replicate n x) (List.replicate m x) + cost x x)) := by
        conv_lhs => rw [List.replicate_succ, List.replicate_succ (n := m)]
        rw [levSpec_cons_cons]
        simp only [← List.replicate_succ]
      rw [hexp, ih (m + 1), ih m]
      rcases hmid with ⟨hm1, hm2⟩
      have hcx : cost x x = 0 := by simp [cost]
      rw [hcx]
      refine le_antisymm ?_ ?_ <;> simp only [le_min_iff, min_le_iff] <;> omega

/-! ### Claims C1 and C5: the similarity formula -/

/-- **C1** (amended): `similarity_ratio` equals
`round(100 * (1 - d / max(len a, len b)))` computed in IEEE-754 binary32
arithmetic and clamped, where `d` is the unit-cost byte-level Levenshtein
distance (the textbook recursion `levSpec`), and both inputs empty give
`100` — as `similaritySpecF32` states.  The claim's exact-rational version
of the formula is refuted by `similarity_exact_formula_counterexample`. -/
theorem similarity_matches_f32_spec (a b : List Nat) :
    similarity_ratio a b = similaritySpecF32 a b := by
  unfold similarity_ratio similaritySpecF32
  rw [levenshtein_eq_levSpec]

/-- **C1**, counterexample to the claim as stated: on two runs of `'x'` of
byte lengths 40 and 21 the code returns 52, while the claimed exact-rational
formula `round(100 * (1 - 19/40)) = round(52.5)` gives 53: the `f32`
arithmetic loses the exact tie. -/
theorem similarity_exact_formula_counterexample :
    similarity_ratio (List.replicate 40 120) (List.replicate 21 120) ≠
      similaritySpecExact (List.replicate 40 120) (List.replicate 21 120) := by
  have hd : levSpec (List.replicate 40 120) (List.replicate 21 120) = 19 := by
    rw [levSpec_replicate]
  have h1 : similarity_ratio (List.replicate 40 120) (List.replicate 21 120) = 52 := by
    decide
  have h2 : similaritySpecExact (List.replicate 40 120) (List.replicate 21 120) = 53 := by
    unfold similaritySpecExact
    rw [hd]
    decide
  omega

/-- **C5** (amended): identical strings (and in particular two empty strings)
always score 100.  The converse of the original claim is false: by
`similarity_not_injective_counterexample` two distinct strings can also
score 100. -/
theorem similarity_self_eq_100 (a : List Nat) : similarity_ratio a a = 100 := by
  unfold similarity_ratio
  by_cases h : max a.length a.length = 0
  · rw [if_pos h]
  · rw [if_neg h]
    rw [show levenshtein_distance a a = 0 from by unfold levenshtein_distance; simp]
    simp +decide [f32SimilarityFromDistance, f32OfNat, rndDy, f32Div, f32Sub, dySub,
      f32Mul, dyMul, dyRoundHalfAway]

/-- **C5**, counterexample to "100 iff identical": a run of 200 `'x'` bytes
and a run of 199 `'x'` bytes differ, their edit distance is 1, and the `f32`
pipeline rounds `100 * (1 - 1/200) = 99.5` up to 100. -/
theorem similarity_not_injective_counterexample :
    similarity_ratio (List.replicate 200 120) (List.replicate 199 120) = 100 ∧
      List.replicate 200 120 ≠ (List.replicate 199 120 : List Nat) := by
  constructor
  · unfold similarity_ratio
    rw [levenshtein_eq_levSpec, levSpec_replicate]
    decide
  · decide

/-! ### Claim C9: base-domain extraction -/

theorem rfindByte_none (t : Nat) : ∀ s : List Nat, rfindByte t s = none ↔ t ∉ s := by
  intro s
  induction s with
  | nil => simp [rfindByte]
  | cons c rest ih =>
    rw [rfindByte]
    cases h : rfindByte t rest with
    | some j =>
      have hr : t ∈ rest := by
        by_contra hn
        rw [← ih, h] at hn
        cases hn
      simp [hr]
    | none =>
      have hr : t ∉ rest := ih.mp h
      by_cases hc : c = t
      · simp [hc]
      · simp only [List.mem_cons, if_neg hc]
        constructor
        · intro _ h1
          rcases h1 with h1 | h1
          · exact hc h1.symm
          · exact hr h1
        · intro _
          trivial

theorem rfindByte_some (t : Nat) :
    ∀ (s : List Nat) (j : Nat), rfindByte t s = some j →
      ∃ p q, s = p ++ t :: q ∧ t ∉ q ∧ p.length = j := by
  intro s
  induction s with
  | nil => intro j h; simp [rfindByte] at h
  | cons c rest ih =>
    intro j h
    rw [rfindByte] at h
    cases hr : rfindByte t rest with
    | some j' =>
      rw [hr] at h
      have hj : j' + 1 = j := by injection h
      obtain ⟨p, q, hs, hq, hl⟩ := ih j' hr
      refine ⟨c :: p, q, ?_, hq, ?_⟩
      · rw [List.cons_append, ← hs]
      · simp only [List.length_cons, hl, hj]
    | none =>
      rw [hr] at h
      by_cases hc : c = t
      · rw [if_pos hc] at h
        have hj : 0 = j := by injection h
        refine ⟨[], rest, ?_, (rfindByte_none t rest).mp hr, ?_⟩
        · rw [hc]; rfl
        · simp [← hj]
      · rw [if_neg hc] at h
        cases h

/-- **C9** (amended): when the input contains a `'.'` beyond its first byte,
`get_base_domain` cuts at the last dot and returns the (nonempty) part before
it; otherwise — no dot at all, or a dot only as the very first byte (e.g.
`".com"`) — the input is returned unchanged.  The original claim, which also
cuts when the only dot leads, is refuted by
`get_base_domain_dotcom_counterexample`. -/
theorem get_base_domain_spec (s : List Nat) :
    (46 ∈ s.drop 1 →
      ∃ p q, s = p ++ 46 :: q ∧ 46 ∉ q ∧ p ≠ [] ∧ get_base_domain s = p) ∧
      (46 ∉ s.drop 1 → get_base_domain s = s) := by
  constructor
  · intro hmem
    have hs : 46 ∈ s := by
      rcases s with _ | ⟨c, rest⟩
      · simp at hmem
      · simp only [List.drop_succ_cons, List.drop_zero] at hmem
        exact List.mem_cons_of_mem c hmem
    cases hfind : rfindByte 46 s with
    | none => exact absurd hs (((rfindByte_none 46 s).mp hfind))
    | some j =>
      obtain ⟨p, q, hdecomp, hq, hl⟩ := rfindByte_some 46 s j hfind
      have hp : p ≠ [] := by
        intro hnil
        rw [hnil] at hdecomp
        simp only [List.nil_append] at hdecomp
        rw [hdecomp] at hmem
        simp only [List.drop_succ_cons, List.drop_zero] at hmem
        exact hq hmem
      refine ⟨p, q, hdecomp, hq, hp, ?_⟩
      simp only [get_base_domain, hfind]
      have hj : 0 < j := by
        rcases p with _ | ⟨p0, p'⟩
        · exact absurd rfl hp
        · simp only [List.length_cons] at hl
          omega
      rw [if_pos hj, hdecomp, ← hl, List.take_left]
  · intro hnot
    cases hfind : rfindByte 46 s with
    | none => simp only [get_base_domain, hfind]
    | some j =>
      obtain ⟨p, q, hdecomp, hq, hl⟩ := rfindByte_some 46 s j hfind
      have hj : j = 0 := by
        by_contra hne
        have : 0 < p.length := by omega
        rcases p with _ | ⟨p0, p'⟩
        · simp at this
        · rw [hdecomp] at hnot
          simp only [List.cons_append, List.drop_succ_cons, List.drop_zero] at hnot
          exact hnot (by simp)
      simp only [get_base_domain, hfind]
      simp [hj]

/-- **C9**, counterexample to the claim as stated: `".com"` contains a dot,
but the code leaves it unchanged instead of removing the final label. -/
theorem get_base_domain_dotcom_counterexample :
    46 ∈ ([46, 99, 111, 109] : List Nat) ∧
      get_base_domain [46, 99, 111, 109] ≠ removeFinalLabel [46, 99, 111, 109] := by
  decide

/-- **C9** witness: the amended theorem applied to `"example.com"` (a dot
beyond the first byte) and `"nodot"` (no dot). -/
theorem get_base_domain_spec_witness :
    (∃ p q, ([101, 120, 97, 109, 112, 108, 101, 46, 99, 111, 109] : List Nat) =
        p ++ 46 :: q ∧ 46 ∉ q ∧ p ≠ [] ∧
        get_base_domain [101, 120, 97, 109, 112, 108, 101, 46, 99, 111, 109] = p) ∧
      get_base_domain [110, 111, 100, 111, 116] = [110, 111, 100, 111, 116] :=
  ⟨(get_base_domain_spec _).1 (by decide), (get_base_domain_spec _).2 (by decide)⟩

/-! ### Claims C3 and C4: the confusable expander -/

theorem ndInner_length_le (maxN m : Nat) (pre : List Nat) (hm : maxN ≤ m) :
    ∀ (rs : List (List Nat)) (next : List (List Nat)), next.length ≤ m →
      (ndInner maxN pre rs next).length ≤ m := by
  intro rs
  induction rs with
  | nil => intro next h; simpa [ndInner] using h
  | cons r rs ih =>
    intro next h
    rw [ndInner]
    by_cases hc : maxN ≤ next.length
    · rw [if_pos hc]; exact h
    · rw [if_neg hc]
      exact ih (next ++ [pre ++ r]) (by simp; omega)

theorem ndOuter_length_le (maxN m : Nat) (repls : List (List Nat)) (hm : maxN ≤ m) :
    ∀ (ps : List (List Nat)) (next : List (List Nat)), next.length ≤ m →
      (ndOuter maxN repls ps next).length ≤ m := by
  intro ps
  induction ps with
  | nil => intro next h; simpa [ndOuter] using h
  | cons p ps ih =>
    intro next h
    rw [ndOuter]
    have h2 := ndInner_length_le maxN m p hm repls next h
    by_cases hc : maxN ≤ (ndInner maxN p repls next).length
    · rw [if_pos hc]; exact h2
    · rw [if_neg hc]; exact ih _ h2

theorem ndChars_length_le (confusables : Nat → Option (List (List Nat))) (maxN m : Nat)
    (hm : maxN ≤ m) :
    ∀ (rest : List Nat) (combos : List (List Nat)), combos.length ≤ m →
      (ndChars confusables maxN rest combos).length ≤ m := by
  intro rest
  induction rest with
  | nil => intro combos h; simpa [ndChars] using h
  | cons ch rest ih =>
    intro combos h
    rw [ndChars]
    have h2 := ndOuter_length_le maxN m ((confusables ch).getD [[ch]]) hm combos []
      (by simp)
    by_cases hc : maxN ≤ (ndOuter maxN ((confusables ch).getD [[ch]]) combos []).length
    · rw [if_pos hc]; exact h2
    · rw [if_neg hc]; exact ih _ h2

/-- **C3** (amended): the Confusable Expander returns at most
`max maxVariants 1` variants: at most `maxVariants` whenever
`maxVariants ≥ 1`, while the empty domain yields its single empty variant even
when `maxVariants = 0` (refuting the original claim, see
`normalize_domain_cap_zero_counterexample`). -/
theorem normalize_domain_length_le (domain : List Nat)
    (confusables : Nat → Option (List (List Nat))) (maxVariants : Nat) :
    (normalize_domain domain confusables maxVariants).length ≤ max maxVariants 1 := by
  exact ndChars_length_le confusables maxVariants (max maxVariants 1)
    (Nat.le_max_left _ _) domain [[]] (by simp)

/-- **C3**, counterexample to the claim as stated: with `maxVariants = 0` the
empty domain still produces one (empty) variant. -/
theorem normalize_domain_cap_zero_counterexample :
    ¬ (normalize_domain [] (fun _ => none) 0).length ≤ 0 := by
  decide

theorem ndInner_mem (maxN : Nat) (pre : List Nat) :
    ∀ (rs : List (List Nat)) (next : List (List Nat)) (v : List Nat),
      v ∈ ndInner maxN pre rs next → v ∈ next ∨ ∃ r ∈ rs, v = pre ++ r := by
  intro rs
  induction rs with
  | nil => intro next v h; exact Or.inl (by simpa [ndInner] using h)
  | cons r rs ih =>
    intro next v h
    rw [ndInner] at h
    by_cases hc : maxN ≤ next.length
    · rw [if_pos hc] at h; exact Or.inl h
    · rw [if_neg hc] at h
      rcases ih _ v h with hin | ⟨r', hr', rfl⟩
      · rcases List.mem_append.mp hin with hin | hin
        · exact Or.inl hin
        · simp only [List.mem_singleton] at hin
          exact Or.inr ⟨r, List.mem_cons_self r rs, hin⟩
      · exact Or.inr ⟨r', List.mem_cons_of_mem r hr', rfl⟩

theorem ndOuter_mem (maxN : Nat) (repls : List (List Nat)) :
    ∀ (ps : List (List Nat)) (next : List (List Nat)) (v : List Nat),
      v ∈ ndOuter maxN repls ps next →
        v ∈ next ∨ ∃ p ∈ ps, ∃ r ∈ repls, v = p ++ r := by
  intro ps
  induction ps with
  | nil => intro next v h; exact Or.inl (by simpa [ndOuter] using h)
  | cons p ps ih =>
    intro next v h
    rw [ndOuter] at h
    by_cases hc : maxN ≤ (ndInner maxN p repls next).length
    · rw [if_pos hc] at h
      rcases ndInner_mem maxN p repls next v h with hin | ⟨r, hr, rfl⟩
      · exact Or.inl hin
      · exact Or.inr ⟨p, List.mem_cons_self p ps, r, hr, rfl⟩
    · rw [if_neg hc] at h
      rcases ih _ v h with hin | ⟨p', hp', r, hr, rfl⟩
      · rcases ndInner_mem maxN p repls next v hin with hin2 | ⟨r, hr, rfl⟩
        · exact Or.inl hin2
        · exact Or.inr ⟨p, List.mem_cons_self p ps, r, hr, rfl⟩
      · exact Or.inr ⟨p', List.mem_cons_of_mem p hp', r, hr, rfl⟩

theorem mem_allSubstitutions_snoc (confusables : Nat → Option (List (List Nat))) (ch : Nat) :
    ∀ (pre : List Nat) (v : List Nat),
      v ∈ allSubstitutions confusables (pre ++ [ch]) ↔
        ∃ p ∈ allSubstitutions confusables pre,
          ∃ r ∈ (confusables ch).getD [[ch]], v = p ++ r := by
  intro pre
  induction pre with
  | nil =>
    intro v
    simp [allSubstitutions]
  | cons c cs ih =>
    intro v
    constructor
    · intro h
      simp only [List.cons_append, allSubstitutions, List.mem_flatMap, List.mem_map] at h
      obtain ⟨r1, hr1, w, hw, rfl⟩ := h
      obtain ⟨p, hp, r, hr, rfl⟩ := (ih w).mp hw
      refine ⟨r1 ++ p, ?_, r, hr, by simp⟩
      simp only [allSubstitutions, List.mem_flatMap, List.mem_map]
      exact ⟨r1, hr1, p, hp, rfl⟩
    · intro h
      obtain ⟨p, hp, r, hr, rfl⟩ := h
      simp only [allSubstitutions, List.mem_flatMap, List.mem_map] at hp
      obtain ⟨r1, hr1, w, hw, rfl⟩ := hp
      simp only [List.cons_append, allSubstitutions, List.mem_flatMap, List.mem_map]
      exact ⟨r1, hr1, w ++ r, (ih (w ++ r)).mpr ⟨w, hw, r, hr, rfl⟩, by simp⟩

theorem ndChars_coverage (confusables : Nat → Option (List (List Nat))) (maxN : Nat) :
    ∀ (rest : List Nat) (combos : List (List Nat)) (pre : List Nat),
      (∀ v ∈ combos, v ∈ allSubstitutions confusables pre) →
      ∃ j, j ≤ rest.length ∧
        (∀ v ∈ ndChars confusables maxN rest combos,
          v ∈ allSubstitutions confusables (pre ++ rest.take j)) ∧
        ((ndChars confusables maxN rest combos).length < maxN → j = rest.length) := by
  intro rest
  induction rest with
  | nil =>
    intro combos pre hc
    exact ⟨0, Nat.le_refl 0, by simpa [ndChars] using hc, fun _ => rfl⟩
  | cons ch rest ih =>
    intro combos pre hc
    rw [ndChars]
    have hnextmem : ∀ v ∈ ndOuter maxN ((confusables ch).getD [[ch]]) combos [],
        v ∈ allSubstitutions confusables (pre ++ [ch]) := by
      intro v hv
      rcases ndOuter_mem maxN _ combos [] v hv with hin | ⟨p, hp, r, hr, rfl⟩
      · simp at hin
      · exact (mem_allSubstitutions_snoc confusables ch pre (p ++ r)).mpr
          ⟨p, hc p hp, r, hr, rfl⟩
    by_cases hcap : maxN ≤ (ndOuter maxN ((confusables ch).getD [[ch]]) combos []).length
    · rw [if_pos hcap]
      refine ⟨1, by simp, ?_, ?_⟩
      · intro v hv
        simpa using hnextmem v hv
      · intro hlt
        omega
    · rw [if_neg hcap]
      obtain ⟨j, hj, hcov, hfull⟩ := ih _ (pre ++ [ch]) hnextmem
      refine ⟨j + 1, by simpa using Nat.succ_le_succ hj, ?_, ?_⟩
      · intro v hv
        have h2 := hcov v hv
        simpa [List.append_assoc] using h2
      · intro hlt
        simp [hfull hlt]

/-- **C4** (amended): every variant the Confusable Expander returns is a full
in-order substitution of the same prefix of the domain (one substitute per
character), and that prefix is the whole domain whenever fewer than
`maxVariants` variants come back, i.e. whenever the cap did not truncate the
expansion.  The original claim — every variant covers every character — fails
once truncation strikes: see `normalize_domain_truncation_counterexample`. -/
theorem normalize_domain_prefix_coverage (domain : List Nat)
    (confusables : Nat → Option (List (List Nat))) (maxVariants : Nat) :
    ∃ j, j ≤ domain.length ∧
      (∀ v ∈ normalize_domain domain confusables maxVariants,
        v ∈ allSubstitutions confusables (domain.take j)) ∧
      ((normalize_domain domain confusables maxVariants).length < maxVariants →
        j = domain.length) := by
  have h := ndChars_coverage confusables maxVariants domain [[]] []
    (by intro v hv; simp only [List.mem_singleton] at hv; simp [hv, allSubstitutions])
  simpa [normalize_domain] using h

/-- **C4**, counterexample to the claim as stated (the repository's own test
`normalize_domain_respects_max_normalized`): expanding `"ab"` with
`a ↦ {a, @}, b ↦ {b, 8}` under cap 1 yields the single variant `"a"`, which
omits the character `'b'` and is no full substitution of the domain. -/
theorem normalize_domain_truncation_counterexample :
    normalize_domain [97, 98]
        (fun c => if c = 97 then some [[97], [64]]
          else if c = 98 then some [[98], [56]] else none) 1 = [[97]] ∧
      [97] ∉ allSubstitutions
        (fun c => if c = 97 then some [[97], [64]]
          else if c = 98 then some [[98], [56]] else none) [97, 98] := by
  constructor
  · decide
  · decide

/-! ### Claims C2, C8 and C10: the registration-gated scanner -/

theorem scanGo_count_le {ε : Type} (checker : List Nat → Nat → Except ε (Bool × Bool))
    (wt : Nat) (ud : List Nat) (maxChecks maxRes maxResT : Nat) :
    ∀ (vs : List (List Nat)) (checks : Nat) (res : List IdnResult) (tOut : Bool),
      (scanGo checker wt ud maxChecks maxRes maxResT checks vs res tOut).2 ≤
        maxChecks - checks := by
  intro vs
  induction vs with
  | nil => intro checks res tOut; simp [scanGo]
  | cons d rest ih =>
    intro checks res tOut
    rw [scanGo]
    by_cases h1 : maxChecks ≤ checks
    · rw [if_pos h1]
      simp
    · rw [if_neg h1]
      by_cases h2 : tOut = false ∧ maxRes ≤ res.length
      · rw [if_pos h2]; simp
      · rw [if_neg h2]
        by_cases h3 : tOut = true ∧ maxResT ≤ res.length
        · rw [if_pos h3]; simp
        · rw [if_neg h3]
          cases hch : checker d wt with
          | error e => simp [hch]; omega
          | ok pr =>
            obtain ⟨registered, lookup_timed_out⟩ := pr
            simp only [hch]
            by_cases ht : (tOut || lookup_timed_out) = true
            · rw [if_pos ht]; simp; omega
            · rw [if_neg ht]
              have := ih (checks + 1)
                (if registered then res ++ [⟨d, map_unicode_to_ascii ud d, true⟩] else res)
                (tOut || lookup_timed_out)
              simp only []
              omega

theorem scanGo_normal_cap {ε : Type} (checker : List Nat → Nat → Except ε (Bool × Bool))
    (wt : Nat) (ud : List Nat) (maxChecks maxRes maxResT : Nat) :
    ∀ (vs : List (List Nat)) (checks : Nat) (res : List IdnResult),
      res.length ≤ maxRes →
      ∀ (res' : List IdnResult) (n : Nat),
        scanGo checker wt ud maxChecks maxRes maxResT checks vs res false =
          (Except.ok (res', false), n) →
        res'.length ≤ maxRes := by
  intro vs
  induction vs with
  | nil =>
    intro checks res h res' n heq
    rw [scanGo] at heq
    simp only [Prod.mk.injEq, Except.ok.injEq] at heq
    obtain ⟨⟨heq1, -⟩, -⟩ := heq
    rw [← heq1]
    exact h
  | cons d rest ih =>
    intro checks res h res' n heq
    rw [scanGo] at heq
    by_cases h1 : maxChecks ≤ checks
    · rw [if_pos h1] at heq
      simp only [Prod.mk.injEq, Except.ok.injEq] at heq
      obtain ⟨⟨heq1, -⟩, -⟩ := heq
      rw [← heq1]
      exact h
    · rw [if_neg h1] at heq
      by_cases h2 : maxRes ≤ res.length
      · rw [if_pos ⟨rfl, h2⟩] at heq
        simp only [Prod.mk.injEq, Except.ok.injEq] at heq
        obtain ⟨⟨heq1, -⟩, -⟩ := heq
        rw [← heq1]
        exact h
      · rw [if_neg (by simp [h2])] at heq
        rw [if_neg (by simp)] at heq
        cases hch : checker d wt with
        | error e =>
          rw [hch] at heq
          simp at heq
        | ok pr =>
          obtain ⟨registered, lookup_timed_out⟩ := pr
          rw [hch] at heq
          simp only [Bool.false_or] at heq
          cases hto : lookup_timed_out with
          | true =>
            rw [hto] at heq
            rw [if_pos rfl] at heq
            simp at heq
          | false =>
            rw [hto] at heq
            rw [if_neg (by simp)] at heq
            have hlen : (if registered then
                res ++ [⟨d, map_unicode_to_ascii ud d, true⟩] else res).length ≤ maxRes := by
              split
              · simp
                omega
              · omega
            have hfst := congrArg Prod.fst heq
            simp only [] at hfst
            exact ih (checks + 1) _ hlen res' _ (by rw [← hfst])

/-- After the first observed timeout the loop stops at once: a variant whose
check reports `timedOut = true` is the last one processed — its result (when
registered) is appended and no further variant of the remaining list is
checked. -/
theorem scanGo_timeout_stop {ε : Type} (checker : List Nat → Nat → Except ε (Bool × Bool))
    (wt : Nat) (ud : List Nat) (maxChecks maxRes maxResT : Nat)
    (checks : Nat) (d : List Nat) (rest : List (List Nat)) (res : List IdnResult)
    (registered : Bool)
    (hck : checks < maxChecks) (hres : res.length < maxRes)
    (hch : checker d wt = Except.ok (registered, true)) :
    scanGo checker wt ud maxChecks maxRes maxResT checks (d :: rest) res false =
      (Except.ok ((if registered then res ++ [⟨d, map_unicode_to_ascii ud d, true⟩]
          else res), true), 1) := by
  rw [scanGo]
  rw [if_neg (by omega)]
  rw [if_neg (by simp; omega)]
  rw [if_neg (by simp)]
  simp [hch]

theorem finalTruncate_timeout_le (maxResT : Nat) (res : List IdnResult) :
    (finalTruncate maxResT true res).length ≤ maxResT := by
  unfold finalTruncate
  by_cases h : maxResT < res.length
  · rw [if_pos ⟨rfl, h⟩]
    simp
  · rw [if_neg (by simp [h])]
    omega

/-- **C2**: the Registration-Gated Scanner (1) performs at most
`maxRegistrationChecks` registration checks, (2) returns at most
`maxResultsNormal` results when no check reported a timeout, (3) returns at
most `maxResultsAfterTimeout` results once a timeout was observed, and
(4) stops immediately after the variant that triggered the first timeout,
checking none of the remaining variants. -/
theorem scanner_budget_invariants {ε : Type} (dtu : List Nat → List Nat × Bool)
    (confusables : Nat → Option (List (List Nat)))
    (maxN maxChecks maxRes maxResT wt : Nat)
    (checker : List Nat → Nat → Except ε (Bool × Bool)) (input : List Nat) :
    (puny2url_with_checker dtu confusables maxN maxChecks maxRes maxResT wt checker
        input).checkCount ≤ maxChecks ∧
    (∀ res, (puny2url_with_checker dtu confusables maxN maxChecks maxRes maxResT wt checker
          input).sawTimeout = false →
      (puny2url_with_checker dtu confusables maxN maxChecks maxRes maxResT wt checker
          input).result = Except.ok res →
      res.length ≤ maxRes) ∧
    (∀ res, (puny2url_with_checker dtu confusables maxN maxChecks maxRes maxResT wt checker
          input).sawTimeout = true →
      (puny2url_with_checker dtu confusables maxN maxChecks maxRes maxResT wt checker
          input).result = Except.ok res →
      res.length ≤ maxResT) ∧
    (∀ (ud : List Nat) (checks : Nat) (d : List Nat) (rest : List (List Nat))
        (res : List IdnResult) (registered : Bool),
      checks < maxChecks → res.length < maxRes →
      checker d wt = Except.ok (registered, true) →
      scanGo checker wt ud maxChecks maxRes maxResT checks (d :: rest) res false =
        (Except.ok ((if registered then res ++ [⟨d, map_unicode_to_ascii ud d, true⟩]
            else res), true), 1)) := by
  refine ⟨?_, ?_, ?_, ?_⟩
  · unfold puny2url_with_checker
    cases hdec : decode_idn_to_unicode dtu input with
    | none => simp
    | some ud =>
      simp only []
      rcases hscan : scanGo checker wt ud maxChecks maxRes maxResT 0
        (normalize_domain ud confusables maxN) [] false with ⟨out, n⟩
      have hcount := scanGo_count_le checker wt ud maxChecks maxRes maxResT
        (normalize_domain ud confusables maxN) 0 [] false
      rw [hscan] at hcount
      cases out with
      | ok p =>
        obtain ⟨results, timedOut⟩ := p
        simp only []
        omega
      | error e =>
        simp only []
        omega
  · intro res hto hres
    unfold puny2url_with_checker at hto hres
    cases hdec : decode_idn_to_unicode dtu input with
    | none =>
      rw [hdec] at hto hres
      simp only [Except.ok.injEq] at hres
      rw [← hres]
      simp
    | some ud =>
      rw [hdec] at hto hres
      simp only [] at hto hres
      rcases hscan : scanGo checker wt ud maxChecks maxRes maxResT 0
        (normalize_domain ud confusables maxN) [] false with ⟨out, n⟩
      rw [hscan] at hto hres
      cases out with
      | ok p =>
        obtain ⟨results, timedOut⟩ := p
        simp only [] at hto hres
        rw [hto] at hscan hres
        have hcap := scanGo_normal_cap checker wt ud maxChecks maxRes maxResT
          (normalize_domain ud confusables maxN) 0 [] (by simp) results n hscan
        simp only [Except.ok.injEq] at hres
        rw [← hres]
        simpa [finalTruncate] using hcap
      | error e =>
        simp at hres
  · intro res hto hres
    unfold puny2url_with_checker at hto hres
    cases hdec : decode_idn_to_unicode dtu input with
    | none =>
      rw [hdec] at hto
      simp at hto
    | some ud =>
      rw [hdec] at hto hres
      simp only [] at hto hres
      rcases hscan : scanGo checker wt ud maxChecks maxRes maxResT 0
        (normalize_domain ud confusables maxN) [] false with ⟨out, n⟩
      rw [hscan] at hto hres
      cases out with
      | ok p =>
        obtain ⟨results, timedOut⟩ := p
        simp only [] at hto hres
        rw [hto] at hres
        simp only [Except.ok.injEq] at hres
        rw [← hres]
        exact finalTruncate_timeout_le maxResT results
      | error e =>
        simp at hres
  · intro ud checks d rest res registered hck hres hch
    exact scanGo_timeout_stop checker wt ud maxChecks maxRes maxResT checks d rest res
      registered hck hres hch

/-- **C2** witness: the budget theorem applied to a concrete scan (one
variant, a checker that reports `registered = true, timedOut = true`,
budgets 1/2/3/4/5). -/
theorem scanner_budget_invariants_witness :
    (puny2url_with_checker (ε := Unit) (fun s => (s, false)) (fun _ => none) 1 2 3 4 5
        (fun _ _ => Except.ok (true, true)) [97]).checkCount ≤ 2 ∧
    (∀ res, (puny2url_with_checker (ε := Unit) (fun s => (s, false)) (fun _ => none) 1 2 3 4 5
          (fun _ _ => Except.ok (true, true)) [97]).sawTimeout = false →
      (puny2url_with_checker (ε := Unit) (fun s => (s, false)) (fun _ => none) 1 2 3 4 5
          (fun _ _ => Except.ok (true, true)) [97]).result = Except.ok res →
      res.length ≤ 3) ∧
    (∀ res, (puny2url_with_checker (ε := Unit) (fun s => (s, false)) (fun _ => none) 1 2 3 4 5
          (fun _ _ => Except.ok (true, true)) [97]).sawTimeout = true →
      (puny2url_with_checker (ε := Unit) (fun s => (s, false)) (fun _ => none) 1 2 3 4 5
          (fun _ _ => Except.ok (true, true)) [97]).result = Except.ok res →
      res.length ≤ 4) ∧
    (∀ (ud : List Nat) (checks : Nat) (d : List Nat) (rest : List (List Nat))
        (res : List IdnResult) (registered : Bool),
      checks < 2 → res.length < 3 →
      (fun (_ : List Nat) (_ : Nat) => (Except.ok (true, true) : Except Unit (Bool × Bool))) d 5 =
        Except.ok (registered, true) →
      scanGo (ε := Unit) (fun _ _ => Except.ok (true, true)) 5 ud 2 3 4 checks
          (d :: rest) res false =
        (Except.ok ((if registered then res ++ [⟨d, map_unicode_to_ascii ud d, true⟩]
            else res), true), 1)) :=
  scanner_budget_invariants (fun s => (s, false)) (fun _ => none) 1 2 3 4 5
    (fun _ _ => Except.ok (true, true)) [97]

/-- **C10**: a check that reports `registered = true` and `timedOut = true`
in the same call still appends its `IdnResult` before the scan terminates,
and the appended entry survives the final after-timeout truncation exactly
when fewer than `maxResultsAfterTimeout` results had accumulated before
it. -/
theorem scanner_registered_timeout_recorded {ε : Type}
    (checker : List Nat → Nat → Except ε (Bool × Bool)) (wt : Nat) (ud : List Nat)
    (maxChecks maxRes maxResT : Nat) (checks : Nat) (d : List Nat)
    (rest : List (List Nat)) (res : List IdnResult)
    (hck : checks < maxChecks) (hres : res.length < maxRes)
    (hch : checker d wt = Except.ok (true, true)) :
    scanGo checker wt ud maxChecks maxRes maxResT checks (d :: rest) res false =
      (Except.ok (res ++ [⟨d, map_unicode_to_ascii ud d, true⟩], true), 1) ∧
    finalTruncate maxResT true (res ++ [⟨d, map_unicode_to_ascii ud d, true⟩]) =
      (if res.length < maxResT then res ++ [⟨d, map_unicode_to_ascii ud d, true⟩]
        else res.take maxResT) := by
  constructor
  · have h := scanGo_timeout_stop checker wt ud maxChecks maxRes maxResT checks d rest res
      true hck hres hch
    simpa using h
  · unfold finalTruncate
    by_cases h : res.length < maxResT
    · rw [if_neg (by simp; omega), if_pos h]
    · rw [if_pos ⟨rfl, by simp; omega⟩, if_neg h]
      rw [List.take_append_eq_append_take]
      simp [show maxResT - res.length = 0 from by omega]

/-- **C10** witness: one concrete registered-and-timed-out check (empty
accumulator, caps 200/50/5) is appended and survives truncation. -/
theorem scanner_registered_timeout_recorded_witness :
    scanGo (fun _ _ => (Except.ok (true, true) : Except Unit (Bool × Bool))) 2500 [9000]
        200 50 5 0 ([[97]] : List (List Nat)) [] false =
      (Except.ok ([] ++ [⟨[97], map_unicode_to_ascii [9000] [97], true⟩], true), 1) ∧
    finalTruncate 5 true ([] ++ [⟨[97], map_unicode_to_ascii [9000] [97], true⟩]) =
      (if ([] : List IdnResult).length < 5 then
          [] ++ [⟨[97], map_unicode_to_ascii [9000] [97], true⟩]
        else ([] : List IdnResult).take 5) :=
  scanner_registered_timeout_recorded (fun _ _ => Except.ok (true, true)) 2500 [9000]
    200 50 5 0 [97] [] [] (by omega) (by simp) rfl

/-- **C8**: an input that decoding rejects (or that contains whitespace)
makes the IDN lookup return a successful response with an empty result list,
with zero registration checks performed and the confusable expander never
invoked. -/
theorem decode_failure_yields_empty {ε : Type} (dtu : List Nat → List Nat × Bool)
    (confusables : Nat → Option (List (List Nat)))
    (maxN maxChecks maxRes maxResT wt : Nat)
    (checker : List Nat → Nat → Except ε (Bool × Bool)) (input : List Nat)
    (h : input.any isWhitespaceChar = true ∨ (dtu input).2 = true) :
    lookup_idn dtu confusables maxN maxChecks maxRes maxResT wt checker input =
        Except.ok ⟨input, false, true, []⟩ ∧
      puny2url_with_checker dtu confusables maxN maxChecks maxRes maxResT wt checker input =
        ⟨Except.ok [], 0, false, false⟩ := by
  have hdec : decode_idn_to_unicode dtu input = none := by
    unfold decode_idn_to_unicode
    rcases h with h | h
    · rw [if_pos h]
    · by_cases hw : input.any isWhitespaceChar = true
      · rw [if_pos hw]
      · rw [if_neg hw, if_pos h]
  have hp : puny2url_with_checker dtu confusables maxN maxChecks maxRes maxResT wt checker
      input = ⟨Except.ok [], 0, false, false⟩ := by
    unfold puny2url_with_checker
    rw [hdec]
  refine ⟨?_, hp⟩
  unfold lookup_idn
  rw [hp]
  rfl

/-- **C8** witness: the claim applied to the single-space input, which
contains whitespace. -/
theorem decode_failure_yields_empty_witness :
    lookup_idn (ε := Unit) (fun s => (s, false)) (fun _ => none) 2000 200 50 5 2500
        (fun _ _ => Except.ok (false, false)) [32] =
        Except.ok ⟨[32], false, true, []⟩ ∧
      puny2url_with_checker (ε := Unit) (fun s => (s, false)) (fun _ => none) 2000 200 50 5 2500
        (fun _ _ => Except.ok (false, false)) [32] =
        ⟨Except.ok [], 0, false, false⟩ :=
  decode_failure_yields_empty (fun s => (s, false)) (fun _ => none) 2000 200 50 5 2500
    (fun _ _ => Except.ok (false, false)) [32] (Or.inl (by decide))

/-! ### Claims C6 and C7: brand matcher priority and result-list invariants -/

theorem resultsDescLE_trans :
    ∀ (a b c : AsciiResult), resultsDescLE a b → resultsDescLE b c → resultsDescLE a c := by
  intro a b c hab hbc
  simp only [resultsDescLE, decide_eq_true_eq] at hab hbc ⊢
  omega

theorem resultsDescLE_total :
    ∀ (a b : AsciiResult), resultsDescLE a b || resultsDescLE b a := by
  intro a b
  simp only [resultsDescLE, Bool.or_eq_true, decide_eq_true_eq]
  omega

theorem keptBrandResults_min_similarity (bl : List MostPhishedEntry)
    (lower : List Nat → List Nat) (domain : List Nat) :
    ∀ r ∈ keptBrandResults bl lower domain, 80 ≤ r.similarity := by
  intro r hr
  simp only [keptBrandResults, List.mem_filterMap] at hr
  obtain ⟨e, he, hsome⟩ := hr
  by_cases hb : 80 ≤ bestScore (brandCandidates lower domain) (entryTargets e)
  · rw [if_pos hb] at hsome
    simp only [Option.some.injEq] at hsome
    rw [← hsome]
    exact hb
  · rw [if_neg hb] at hsome
    cases hsome

theorem fuzzyScored_min_similarity (normalized : List Nat) (candidates : List (List Nat)) :
    ∀ r ∈ fuzzyScored normalized candidates, 80 ≤ r.similarity := by
  intro r hr
  have h := List.of_mem_filter hr
  simpa using h

/-- The common sort-and-truncate tail establishes the full result-list
invariant over any kept list whose entries all score at least 80. -/
theorem sortTruncResults_invariant (l : List AsciiResult)
    (h80 : ∀ r ∈ l, 80 ≤ r.similarity) :
    resultsInvariant (sortTruncResults l) l := by
  refine ⟨?_, ?_, ?_, ?_⟩
  · simp only [sortTruncResults, List.length_take]
    exact Nat.min_le_left 3 _
  · have hs := List.sorted_mergeSort resultsDescLE_trans resultsDescLE_total l
    have hsub : List.Sublist ((l.mergeSort resultsDescLE).take 3)
        (l.mergeSort resultsDescLE) := List.take_sublist 3 _
    have hp := hs.sublist hsub
    exact hp.imp (by intro a b hab; simpa [resultsDescLE] using hab)
  · intro r hr
    have h1 : r ∈ l.mergeSort resultsDescLE :=
      List.mem_of_mem_take hr
    exact h80 r (List.mem_mergeSort.mp h1)
  · show (l.mergeSort resultsDescLE).take 3 = _
    rw [List.mergeSort_enum]

/-- **C7**: every list produced by the Brand Matcher and every list produced
by the Candidate-Store Fuzzy Matcher satisfies `resultsInvariant`: at most 3
entries, sorted descending by similarity, every entry scoring at least 80,
and equal to the leading 3 entries of the manifestly stable sort of the kept
list (index-tagged entries ordered by score descending, ties by original
position), so equal scores keep their original order. -/
theorem matcher_result_invariants (bl : List MostPhishedEntry)
    (lower : List Nat → List Nat) (domain : List Nat)
    (normalized : List Nat) (candidates : List (List Nat)) :
    resultsInvariant (detect_from_most_phished bl lower domain)
        (keptBrandResults bl lower domain) ∧
      resultsInvariant (sortTruncResults (fuzzyScored normalized candidates))
        (fuzzyScored normalized candidates) := by
  constructor
  · exact sortTruncResults_invariant _ (keptBrandResults_min_similarity bl lower domain)
  · exact sortTruncResults_invariant _ (fuzzyScored_min_similarity normalized candidates)

/-- **C7** witness: the invariant theorem applied to one concrete brand list,
domain and candidate list. -/
theorem matcher_result_invariants_witness :
    resultsInvariant
        (detect_from_most_phished [⟨[103, 103], [103, 103], []⟩] (fun v => v) [103, 103])
        (keptBrandResults [⟨[103, 103], [103, 103], []⟩] (fun v => v) [103, 103]) ∧
      resultsInvariant (sortTruncResults (fuzzyScored [103] [[103]]))
        (fuzzyScored [103] [[103]]) :=
  matcher_result_invariants [⟨[103, 103], [103, 103], []⟩] (fun v => v) [103, 103]
    [103] [[103]]

/-- **C6**: whenever the Brand Matcher produces at least one result,
`detect_impersonation` returns exactly that result, for every corpus
capability — the candidate store is never consulted and the outcome is
independent of it. -/
theorem brand_matcher_priority {ε : Type} (bl : List MostPhishedEntry)
    (lower : List Nat → List Nat)
    (corpus : Nat → Nat → Nat → Nat → Except ε (List (List Nat)))
    (domain : List Nat)
    (h : detect_from_most_phished bl lower domain ≠ []) :
    detect_impersonation bl lower corpus domain =
      Except.ok (detect_from_most_phished bl lower domain) := by
  cases hmp : detect_from_most_phished bl lower domain with
  | nil => exact absurd hmp h
  | cons a l => simp [detect_impersonation, hmp]

/-- **C6** witness: a brand list containing `"gg"` matched by the input
`"gg"` (similarity 100), with a corpus stub whose answer is irrelevant. -/
theorem brand_matcher_priority_witness :
    detect_impersonation (ε := Unit) [⟨[103, 103], [103, 103], []⟩] (fun v => v)
        (fun _ _ _ _ => Except.ok []) [103, 103] =
      Except.ok (detect_from_most_phished [⟨[103, 103], [103, 103], []⟩]
        (fun v => v) [103, 103]) := by
  refine brand_matcher_priority [⟨[103, 103], [103, 103], []⟩] (fun v => v)
    (fun _ _ _ _ => Except.ok []) [103, 103] ?_
  have hkept : keptBrandResults [⟨[103, 103], [103, 103], []⟩] (fun v => v) [103, 103] =
      [⟨[103, 103], 100⟩] := by decide
  simp [detect_from_most_phished, sortTruncResults, hkept]

/-- **C4** witness: the coverage theorem at the repository's own truncation
test (domain `"ab"`, cap 1). -/
theorem normalize_domain_prefix_coverage_witness :
    ∃ j, j ≤ ([97, 98] : List Nat).length ∧
      (∀ v ∈ normalize_domain [97, 98]
          (fun c => if c = 97 then some [[97], [64]]
            else if c = 98 then some [[98], [56]] else none) 1,
        v ∈ allSubstitutions
          (fun c => if c = 97 then some [[97], [64]]
            else if c = 98 then some [[98], [56]] else none) (([97, 98] : List Nat).take j)) ∧
      ((normalize_domain [97, 98]
          (fun c => if c = 97 then some [[97], [64]]
            else if c = 98 then some [[98], [56]] else none) 1).length < 1 →
        j = ([97, 98] : List Nat).length) :=
  normalize_domain_prefix_coverage [97, 98]
    (fun c => if c = 97 then some [[97], [64]]
      else if c = 98 then some [[98], [56]] else none) 1

/-! ### Test vectors of the specification (section 8) -/

/-- `editDistance("kitten", "sitting") == 3`. -/
theorem levenshtein_kitten_sitting :
    levenshtein_distance [107, 105, 116, 116, 101, 110] [115, 105, 116, 116, 105, 110, 103] = 3 := by
  decide

/-- `editDistance("", "abc") == 3`. -/
theorem levenshtein_nil_abc : levenshtein_distance [] [97, 98, 99] = 3 := by
  decide

/-- `similarity("", "") == 100`. -/
theorem similarity_empty_empty : similarity_ratio [] [] = 100 := by
  decide

/-- `similarity("a", "") == 0`. -/
theorem similarity_a_empty : similarity_ratio [97] [] = 0 := by
  decide

/-- `stripNonAlnum("g00-gle.com") == "g00glecom"`. -/
theorem strip_non_alnum_g00gle :
    strip_non_alnum [103, 48, 48, 45, 103, 108, 101, 46, 99, 111, 109] =
      [103, 48, 48, 103, 108, 101, 99, 111, 109] := by
  decide
